import Mathlib

/-!
Verification of the generic persisted binary-heap engine
(`src/runtime/src/heap.rs` of `yz89/kitties-extension`).

The heap stores its elements in a sequence (Rust `Vec<T>`, modelled as
`List T`); the ordering is a caller-supplied boolean comparator
`closer_than : T → T → Bool` ("x belongs nearer the root than y").
Each public operation loads the whole sequence from the backing store,
mutates it, and writes it back; the backing store is therefore modelled
by passing the sequence itself in and out of every operation.
-/

namespace KittiesHeap

variable {T : Type}

/-- Rust `parent_idx` from heap.rs: `parent(0) = none`, `parent(1) = parent(2) = 0`,
and for larger `i` the usual integer-division formulas, split on parity
exactly as the Rust `match`/`if` does. -/
def parent_idx (child : Nat) : Option Nat :=
  if child = 0 then none
  else if child ≤ 2 then some 0
  else if child % 2 = 1 then some ((child - 1) / 2)
  else some ((child - 2) / 2)

/-- Rust `left_idx` from heap.rs: `2i+1` when in bounds of the store. -/
def left_idx (store : List T) (parent : Nat) : Option Nat :=
  if parent * 2 + 1 < store.length then some (parent * 2 + 1) else none

/-- Rust `right_idx` from heap.rs: `2i+2` when in bounds of the store. -/
def right_idx (store : List T) (parent : Nat) : Option Nat :=
  if parent * 2 + 2 < store.length then some (parent * 2 + 2) else none

/-- Rust `Vec::swap` on the list model: exchange positions `i` and `j`
(identity when either index is out of bounds; all uses in heap.rs are
in bounds). -/
def listSwap (l : List T) (i j : Nat) : List T :=
  match l[i]?, l[j]? with
  | some a, some b => (l.set i b).set j a
  | _, _ => l

theorem parent_idx_lt {i p : Nat} (h : parent_idx i = some p) : p < i := by
  unfold parent_idx at h
  split at h
  · exact absurd h (by simp)
  · split at h
    · simp at h; omega
    · split at h <;> (simp at h; omega)

/-- Rust `shift_up` from heap.rs: while the element is strictly closer than its
parent, swap and continue at the parent. -/
def shift_up (c : T → T → Bool) (store : List T) (idx : Nat) : List T :=
  match h : parent_idx idx with
  | none => store
  | some par =>
    match store[idx]?, store[par]? with
    | some x, some y =>
      if c x y then shift_up c (listSwap store idx par) par else store
    | _, _ => store
termination_by idx
decreasing_by exact parent_idx_lt h

theorem listSwap_length (l : List T) (i j : Nat) :
    (listSwap l i j).length = l.length := by
  unfold listSwap
  cases l[i]? <;> cases l[j]? <;> simp

theorem left_idx_some {l : List T} {i j : Nat} :
    left_idx l i = some j ↔ j = 2 * i + 1 ∧ j < l.length := by
  unfold left_idx
  split <;> simp <;> omega

theorem right_idx_some {l : List T} {i j : Nat} :
    right_idx l i = some j ↔ j = 2 * i + 2 ∧ j < l.length := by
  unfold right_idx
  split <;> simp <;> omega

/-- Rust `shift_down` from heap.rs: pick the closer child (left wins the
comparison `closer_than(left, right)`, otherwise right — ties go right);
if that child is strictly closer than the current node, swap and continue
there.  The Rust computes the chosen index once and compares through it;
the branch below performs the identical comparisons. -/
def shift_down (c : T → T → Bool) (store : List T) (idx : Nat) : List T :=
  match h : left_idx store idx with
  | none => store
  | some left =>
    match h2 : right_idx store idx with
    | none =>
      match store[left]?, store[idx]? with
      | some xl, some xi =>
        if c xl xi then shift_down c (listSwap store idx left) left else store
      | _, _ => store
    | some right =>
      match store[left]?, store[right]?, store[idx]? with
      | some xl, some xr, some xi =>
        if c xl xr then
          if c xl xi then shift_down c (listSwap store idx left) left else store
        else
          if c xr xi then shift_down c (listSwap store idx right) right else store
      | _, _, _ => store
termination_by store.length - idx
decreasing_by
  all_goals simp only [listSwap_length]
  · have := left_idx_some.mp h; omega
  · have := left_idx_some.mp h; omega
  · have := right_idx_some.mp h2; omega

/-- Rust `push_into_store` from heap.rs: append at the tail, sift up from the
tail index. -/
def push_into_store (c : T → T → Bool) (store : List T) (item : T) : List T :=
  let s := store ++ [item]
  shift_up c s (s.length - 1)

/-- Rust `pop_from_store` from heap.rs: `(returned element, new store)`.
Empty store: nothing.  One element: `Vec::pop`.  Otherwise swap root and
tail, `Vec::pop` the tail (the original root), sift down from the root. -/
def pop_from_store (c : T → T → Bool) (store : List T) : Option T × List T :=
  match store.length with
  | 0 => (none, store)
  | 1 => (store.getLast?, store.dropLast)
  | _ + 2 =>
    let last := store.length - 1
    let s1 := listSwap store 0 last
    (s1.getLast?, shift_down c s1.dropLast 0)

theorem shift_up_length (c : T → T → Bool) (idx : Nat) (store : List T) :
    (shift_up c store idx).length = store.length := by
  induction idx using Nat.strong_induction_on generalizing store with
  | _ idx ih =>
    unfold shift_up
    split
    · rfl
    · rename_i par h
      split
      · split
        · rw [ih par (parent_idx_lt h), listSwap_length]
        · rfl
      · rfl

theorem shift_down_length_aux (c : T → T → Bool) (n : Nat) :
    ∀ (store : List T) (idx : Nat), store.length - idx ≤ n →
      (shift_down c store idx).length = store.length := by
  induction n with
  | zero =>
    intro store idx hn
    unfold shift_down
    split
    · rfl
    · rename_i left h
      have := left_idx_some.mp h
      omega
  | succ n ih =>
    intro store idx hn
    unfold shift_down
    split
    · rfl
    · rename_i left h
      have hL := left_idx_some.mp h
      split
      · split
        · split
          · rw [ih _ left (by rw [listSwap_length]; omega), listSwap_length]
          · rfl
        · rfl
      · rename_i right h2
        have hR := right_idx_some.mp h2
        split
        · split
          · split
            · rw [ih _ left (by rw [listSwap_length]; omega), listSwap_length]
            · rfl
          · split
            · rw [ih _ right (by rw [listSwap_length]; omega), listSwap_length]
            · rfl
        · rfl

theorem shift_down_length (c : T → T → Bool) (store : List T) (idx : Nat) :
    (shift_down c store idx).length = store.length :=
  shift_down_length_aux c (store.length - idx) store idx le_rfl

theorem pop_from_store_length (c : T → T → Bool) (store : List T) :
    (pop_from_store c store).2.length = store.length - 1 := by
  unfold pop_from_store
  split <;> simp_all [shift_down_length, listSwap_length]

/-- Rust `pop_by_stake` from heap.rs: while the root is strictly closer than the
threshold (`stake`), pop it via `pop_from_store` and collect; returns
`(collected list, new store)`. -/
def pop_by_stake (c : T → T → Bool) (store : List T) (stake : T) :
    List T × List T :=
  match h0 : store[0]? with
  | none => ([], store)
  | some peek =>
    if c peek stake then
      match h2 : pop_from_store c store with
      | (none, s) => ([], s)
      | (some top, s) =>
        let r := pop_by_stake c s stake
        (top :: r.1, r.2)
    else ([], store)
termination_by store.length
decreasing_by
  have hl : s.length = store.length - 1 := by
    have := pop_from_store_length c store
    rw [h2] at this; exact this
  have hpos : 0 < store.length := by
    cases store with
    | nil => simp at h0
    | cons a t => simp
  omega

/-- Rust `push_vec` from heap.rs: the `for` loop pushing each item in input
order into the store. -/
def push_vec (c : T → T → Bool) (store : List T) (items : List T) : List T :=
  match items with
  | [] => store
  | item :: rest => push_vec c (push_into_store c store item) rest

/-- Spec-side reference for `push_vec`: sequential `push` of each item,
in input order ("no batch heapify"). -/
def pushSeq (c : T → T → Bool) (store : List T) (items : List T) : List T :=
  items.foldl (fun s item => push_into_store c s item) store

/-- Spec-side reference for `pop_vec` / `pop_until`: repeatedly apply
`pop_top` while the sequence is non-empty and the root is strictly closer
than the threshold, collecting the removed roots in extraction order
(written with explicit fuel; any fuel `≥ length` suffices). -/
def popUntilFuel (c : T → T → Bool) (stake : T) : Nat → List T → List T × List T
  | 0, l => ([], l)
  | Nat.succ n, l =>
    match l[0]? with
    | none => ([], l)
    | some root =>
      if c root stake then
        match pop_from_store c l with
        | (none, s) => ([], s)
        | (some x, s) =>
          let r := popUntilFuel c stake n s
          (x :: r.1, r.2)
      else ([], l)

/-- Pop the top `n` times, collecting the returned elements in extraction
order (used to state the heap-sort property). -/
def popN (c : T → T → Bool) (l : List T) : Nat → List T × List T
  | 0 => ([], l)
  | Nat.succ n =>
    match pop_from_store c l with
    | (none, s) => ([], s)
    | (some x, s) =>
      let r := popN c s n
      (x :: r.1, r.2)

/-- The max-heap comparator used by the heap.rs tests: numerically greater
is closer to the root. -/
def gtc (a b : Nat) : Bool := decide (b < a)

/-- A comparator that is not a strict order (it is not transitive), used to
show that the heap invariant is not preserved for arbitrary comparators:
`badc 2 0` and `badc 1 2` hold but nothing else. -/
def badc (a b : Nat) : Bool := (a == 2 && b == 0) || (a == 1 && b == 2)

/-- The heap invariant: for every index `i` whose left child `2i+1` or
right child `2i+2` is within bounds, the child is never strictly closer
than the parent. -/
def heapProp (c : T → T → Bool) (l : List T) : Prop :=
  ∀ i j x y, (j = 2 * i + 1 ∨ j = 2 * i + 2) →
    l[j]? = some x → l[i]? = some y → c x y = false

/-- Executable heap-invariant checker (used to evaluate `heapProp` on
concrete sequences). -/
def heapPropB (c : T → T → Bool) (l : List T) : Bool :=
  (List.range l.length).all fun j =>
    if j = 0 then true
    else
      match l[j]?, l[(j - 1) / 2]? with
      | some x, some y => !(c x y)
      | _, _ => true

theorem heapProp_of_heapPropB {c : T → T → Bool} {l : List T}
    (h : heapPropB c l = true) : heapProp c l := by
  intro i j x y hij hj hi
  have hjlen : j < l.length := by
    by_contra hc
    rw [List.getElem?_eq_none (by omega)] at hj
    exact Option.noConfusion hj
  have hall := List.all_eq_true.mp h j (List.mem_range.mpr hjlen)
  have hj0 : j ≠ 0 := by omega
  have hpar : (j - 1) / 2 = i := by omega
  simp only [hj0, if_false, hpar, hj, hi] at hall
  simpa using hall

/-- The comparator contract from the spec: a strict total order
("total/strict order", irreflexive/asymmetric, transitive, and any two
incomparable elements are equal). -/
structure LawfulCmp (c : T → T → Bool) : Prop where
  asymm : ∀ a b, c a b = true → c b a = false
  trans : ∀ a b d, c a b = true → c b d = true → c a d = true
  total : ∀ a b, c a b = false → c b a = false → a = b

theorem LawfulCmp.irrefl {c : T → T → Bool} (hc : LawfulCmp c) (a : T) :
    c a a = false := by
  cases h : c a a with
  | false => rfl
  | true =>
    have h2 := hc.asymm a a h
    rw [h] at h2
    exact h2

theorem LawfulCmp.negtrans {c : T → T → Bool} (hc : LawfulCmp c)
    {a b d : T} (h1 : c a b = false) (h2 : c b d = false) :
    c a d = false := by
  cases h : c a d with
  | false => rfl
  | true =>
    cases hba : c b a with
    | false =>
      have hab : a = b := hc.total a b h1 hba
      rw [hab] at h
      rw [h] at h2
      exact Bool.noConfusion h2
    | true =>
      have := hc.trans b a d hba h
      rw [this] at h2
      exact Bool.noConfusion h2

/-! ### Index-arithmetic facts -/

theorem parent_idx_eq_none {i : Nat} : parent_idx i = none ↔ i = 0 := by
  unfold parent_idx
  split
  · simp; omega
  · split
    · simp; omega
    · split <;> simp <;> omega

theorem parent_idx_child {i j : Nat} (h : j = 2 * i + 1 ∨ j = 2 * i + 2) :
    parent_idx j = some i := by
  unfold parent_idx
  split
  · omega
  · split
    · simp; omega
    · split <;> (simp; omega)

theorem parent_idx_child_iff {i j : Nat} :
    parent_idx j = some i ↔ (j = 2 * i + 1 ∨ j = 2 * i + 2) := by
  constructor
  · intro h
    unfold parent_idx at h
    split at h
    · exact Option.noConfusion h
    · split at h
      · simp at h; omega
      · split at h <;> (simp at h; omega)
  · exact parent_idx_child

/-! ### `listSwap` facts -/

theorem listSwap_getElem? {l : List T} {i j : Nat}
    (hi : i < l.length) (hj : j < l.length) (k : Nat) :
    (listSwap l i j)[k]? =
      if k = j then l[i]? else if k = i then l[j]? else l[k]? := by
  have hgi := List.getElem?_eq_getElem hi
  have hgj := List.getElem?_eq_getElem hj
  unfold listSwap
  rw [hgi, hgj]
  simp only [List.getElem?_set, List.length_set]
  by_cases hkj : k = j
  · subst hkj
    simp [hj, hgi]
  · by_cases hki : k = i
    · subst hki
      simp [hkj, Ne.symm hkj, hi, hgj]
    · simp [hkj, hki, Ne.symm hkj, Ne.symm hki]

theorem set_cons_perm (a : T) :
    ∀ (l : List T) (k : Nat), k < l.length →
      ∀ x, l[k]? = some x → List.Perm (x :: l.set k a) (a :: l) := by
  intro l
  induction l with
  | nil => intro k hk; simp at hk
  | cons b t ih =>
    intro k hk x hx
    cases k with
    | zero =>
      simp only [List.getElem?_cons_zero, Option.some.injEq] at hx
      subst hx
      simp only [List.set_cons_zero]
      exact List.Perm.swap _ _ t
    | succ k =>
      simp only [List.getElem?_cons_succ] at hx
      simp only [List.set_cons_succ]
      have hk' : k < t.length := by simpa using hk
      have s1 : List.Perm (x :: b :: t.set k a) (b :: x :: t.set k a) :=
        List.Perm.swap b x _
      have s2 : List.Perm (b :: x :: t.set k a) (b :: a :: t) :=
        (ih k hk' x hx).cons b
      have s3 : List.Perm (b :: a :: t) (a :: b :: t) := List.Perm.swap a b t
      exact (s1.trans s2).trans s3

theorem listSwap_perm (l : List T) (i j : Nat) :
    List.Perm (listSwap l i j) l := by
  unfold listSwap
  cases hgi : l[i]? with
  | none => exact List.Perm.refl l
  | some a =>
    cases hgj : l[j]? with
    | none => exact List.Perm.refl l
    | some b =>
      have hi : i < l.length := by
        by_contra hc
        rw [List.getElem?_eq_none (by omega)] at hgi
        exact Option.noConfusion hgi
      have hj : j < l.length := by
        by_contra hc
        rw [List.getElem?_eq_none (by omega)] at hgj
        exact Option.noConfusion hgj
      -- swap as two `set`s; go through `set_cons_perm` twice
      rcases Decidable.em (i = j) with hij | hij
      · subst hij
        rw [hgi] at hgj
        have hab : a = b := Option.some.inj hgj
        have hset : l.set i a = l := by
          apply List.ext_getElem?
          intro k
          rw [List.getElem?_set]
          rcases Decidable.em (i = k) with hik | hik
          · subst hik; simp [hi, hgi]
          · simp [hik]
        show ((l.set i b).set i a).Perm l
        rw [List.set_set, hset]
      · have h1 : (l.set i b)[j]? = some b := by
          rw [List.getElem?_set]
          simp [hij, hgj]
        have p1 : List.Perm (b :: (l.set i b).set j a) (a :: l.set i b) :=
          set_cons_perm a (l.set i b) j (by simpa using hj) b h1
        have p2 : List.Perm (a :: l.set i b) (b :: l) :=
          set_cons_perm b l i hi a hgi
        exact (List.perm_cons b).mp (p1.trans p2)

/-! ### Multiset preservation -/

theorem shift_up_perm (c : T → T → Bool) (idx : Nat) (store : List T) :
    (shift_up c store idx).Perm store := by
  induction idx using Nat.strong_induction_on generalizing store with
  | _ idx ih =>
    unfold shift_up
    split
    · exact List.Perm.refl _
    · rename_i par h
      split
      · split
        · exact ((ih par (parent_idx_lt h) _).trans (listSwap_perm store idx par))
        · exact List.Perm.refl _
      · exact List.Perm.refl _

theorem shift_down_perm_aux (c : T → T → Bool) (n : Nat) :
    ∀ (store : List T) (idx : Nat), store.length - idx ≤ n →
      (shift_down c store idx).Perm store := by
  induction n with
  | zero =>
    intro store idx hn
    unfold shift_down
    split
    · exact List.Perm.refl _
    · rename_i left h
      have := left_idx_some.mp h
      omega
  | succ n ih =>
    intro store idx hn
    unfold shift_down
    split
    · exact List.Perm.refl _
    · rename_i left h
      have hL := left_idx_some.mp h
      split
      · split
        · split
          · exact (ih _ left (by rw [listSwap_length]; omega)).trans
              (listSwap_perm store idx left)
          · exact List.Perm.refl _
        · exact List.Perm.refl _
      · rename_i right h2
        have hR := right_idx_some.mp h2
        split
        · split
          · split
            · exact (ih _ left (by rw [listSwap_length]; omega)).trans
                (listSwap_perm store idx left)
            · exact List.Perm.refl _
          · split
            · exact (ih _ right (by rw [listSwap_length]; omega)).trans
                (listSwap_perm store idx right)
            · exact List.Perm.refl _
        · exact List.Perm.refl _

theorem shift_down_perm (c : T → T → Bool) (store : List T) (idx : Nat) :
    (shift_down c store idx).Perm store :=
  shift_down_perm_aux c (store.length - idx) store idx le_rfl

theorem push_into_store_perm (c : T → T → Bool) (store : List T) (item : T) :
    (push_into_store c store item).Perm (item :: store) := by
  unfold push_into_store
  exact (shift_up_perm c _ _).trans (List.perm_append_singleton item store)

theorem pop_from_store_fst (c : T → T → Bool) (store : List T) :
    (pop_from_store c store).1 = if store.length = 0 then none else store[0]? := by
  unfold pop_from_store
  split
  · rename_i hlen
    simp [hlen]
  · rename_i hlen
    rw [List.getLast?_eq_getElem?, hlen]
    simp
  · rename_i m hlen
    have h0 : 0 < store.length := by omega
    have hlast : store.length - 1 < store.length := by omega
    show (listSwap store 0 (store.length - 1)).getLast? = _
    rw [List.getLast?_eq_getElem?, listSwap_length,
      listSwap_getElem? h0 hlast, if_pos rfl, if_neg (by omega)]

theorem getLast?_cons_dropLast_perm (l : List T) (x : T)
    (h : l.getLast? = some x) : (x :: l.dropLast).Perm l := by
  have hne : l ≠ [] := by
    cases l
    · simp at h
    · simp
  rw [List.getLast?_eq_getLast l hne] at h
  have hx : l.getLast hne = x := Option.some.inj h
  have happ : l.dropLast ++ [x] = l := by
    rw [← hx]
    exact List.dropLast_append_getLast hne
  have hp := (List.perm_append_singleton x l.dropLast).symm
  rw [happ] at hp
  exact hp

theorem pop_from_store_perm (c : T → T → Bool) (store : List T) (x : T) :
    (pop_from_store c store).1 = some x →
      (x :: (pop_from_store c store).2).Perm store := by
  unfold pop_from_store
  split
  · intro h
    exact Option.noConfusion h
  · intro h
    exact getLast?_cons_dropLast_perm store x h
  · intro h
    have h1 : (listSwap store 0 (store.length - 1)).getLast? = some x := h
    exact ((List.Perm.cons x (shift_down_perm c _ 0)).trans
      (getLast?_cons_dropLast_perm _ x h1)).trans
      (listSwap_perm store 0 (store.length - 1))

theorem pop_by_stake_perm_aux (c : T → T → Bool) (stake : T) (n : Nat) :
    ∀ store : List T, store.length ≤ n →
      ((pop_by_stake c store stake).1 ++ (pop_by_stake c store stake).2).Perm
        store := by
  induction n with
  | zero =>
    intro store hn
    have hnil : store = [] := List.length_eq_zero.mp (by omega)
    subst hnil
    unfold pop_by_stake
    exact List.Perm.refl _
  | succ n ih =>
    intro store hn
    unfold pop_by_stake
    split
    · exact List.Perm.refl _
    · rename_i peek h0
      have hlen : store.length ≠ 0 := by
        cases store with
        | nil => simp at h0
        | cons a t => simp
      split
      · split
        · rename_i s h2
          have hfst := pop_from_store_fst c store
          rw [h2, if_neg hlen, h0] at hfst
          exact Option.noConfusion hfst
        · rename_i top s h2
          have hfst : (pop_from_store c store).1 = some top := by rw [h2]
          have hsnd : (pop_from_store c store).2 = s := by rw [h2]
          have hperm := pop_from_store_perm c store top hfst
          rw [hsnd] at hperm
          have hslen : s.length ≤ n := by
            have hpl := pop_from_store_length c store
            rw [h2] at hpl
            have hpl2 : s.length = store.length - 1 := by simpa using hpl
            omega
          have ihs := ih s hslen
          show (top :: ((pop_by_stake c s stake).1 ++
            (pop_by_stake c s stake).2)).Perm store
          exact (ihs.cons top).trans hperm
      · exact List.Perm.refl _

theorem pop_by_stake_perm (c : T → T → Bool) (store : List T) (stake : T) :
    ((pop_by_stake c store stake).1 ++ (pop_by_stake c store stake).2).Perm
      store :=
  pop_by_stake_perm_aux c stake store.length store le_rfl

/-! ### Heap-invariant preservation -/

theorem getElem?_some_lt {l : List T} {k : Nat} {x : T} (h : l[k]? = some x) :
    k < l.length := by
  by_contra hcon
  rw [List.getElem?_eq_none (by omega)] at h
  exact Option.noConfusion h

theorem left_idx_none {l : List T} {i : Nat} :
    left_idx l i = none ↔ l.length ≤ 2 * i + 1 := by
  unfold left_idx
  split <;> simp <;> omega

/-- Sift-up restores the heap invariant: if every parent-child pair except
the one above `idx` already satisfies it, and the element above `idx`
dominates `idx`'s children, then `shift_up` yields a heap (for a lawful
comparator). -/
theorem shift_up_heap (c : T → T → Bool) (hc : LawfulCmp c) (idx : Nat) :
    ∀ l : List T,
      (∀ i j x y, (j = 2 * i + 1 ∨ j = 2 * i + 2) → j ≠ idx →
        l[j]? = some x → l[i]? = some y → c x y = false) →
      (∀ p j x y, parent_idx idx = some p → (j = 2 * idx + 1 ∨ j = 2 * idx + 2) →
        l[j]? = some x → l[p]? = some y → c x y = false) →
      heapProp c (shift_up c l idx) := by
  induction idx using Nat.strong_induction_on with
  | _ idx ih =>
    intro l ha hb
    unfold shift_up
    split
    · rename_i hpn
      have hidx0 : idx = 0 := parent_idx_eq_none.mp hpn
      intro i j x y hij hj hi
      by_cases hjidx : j = idx
      · omega
      · exact ha i j x y hij hjidx hj hi
    · rename_i par hp
      have hparlt : par < idx := parent_idx_lt hp
      have hpcidx : idx = 2 * par + 1 ∨ idx = 2 * par + 2 :=
        parent_idx_child_iff.mp hp
      split
      · rename_i x0 y0 hx0 hy0
        have hidxlt : idx < l.length := getElem?_some_lt hx0
        have hparlt2 : par < l.length := getElem?_some_lt hy0
        have hswap := fun k => listSwap_getElem? (l := l) hidxlt hparlt2 k
        split
        · rename_i hcxy
          apply ih par hparlt
          · -- pairs not pointing at `par` hold in the swapped list
            intro i j x y hij hjne hj' hi'
            rw [hswap j, if_neg hjne] at hj'
            rw [hswap i] at hi'
            by_cases hjidx : j = idx
            · rw [if_pos hjidx] at hj'
              have hiu := parent_idx_child hij
              rw [hjidx, hp] at hiu
              have hipar : par = i := Option.some.inj hiu
              rw [← hipar, if_pos rfl] at hi'
              have hx : x = y0 := Option.some.inj (hj'.symm.trans hy0)
              have hy : y = x0 := Option.some.inj (hi'.symm.trans hx0)
              rw [hx, hy]
              exact hc.asymm x0 y0 hcxy
            · rw [if_neg hjidx] at hj'
              by_cases hipar : i = par
              · rw [if_pos hipar] at hi'
                have hy : y = x0 := Option.some.inj (hi'.symm.trans hx0)
                rw [hipar] at hij
                have hxyold : c x y0 = false := ha par j x y0 hij hjidx hj' hy0
                rw [hy]
                cases hxx0 : c x x0 with
                | false => rfl
                | true =>
                  have := hc.trans x x0 y0 hxx0 hcxy
                  rw [this] at hxyold
                  exact hxyold
              · by_cases hiidx : i = idx
                · rw [if_neg hipar, if_pos hiidx] at hi'
                  exact hb par j x y hp (hiidx ▸ hij) hj' hi'
                · rw [if_neg hipar, if_neg hiidx] at hi'
                  exact ha i j x y hij hjidx hj' hi'
          · -- the grandparent dominates `par`'s children in the swapped list
            intro g j x y hg hpcj hj' hi'
            have hglt : g < par := parent_idx_lt hg
            rw [hswap j] at hj'
            rw [hswap g, if_neg (by omega : g ≠ par),
              if_neg (by omega : g ≠ idx)] at hi'
            have hpcg : par = 2 * g + 1 ∨ par = 2 * g + 2 :=
              parent_idx_child_iff.mp hg
            by_cases hjidx : j = idx
            · rw [if_neg (by omega : j ≠ par), if_pos hjidx] at hj'
              have hx : x = y0 := Option.some.inj (hj'.symm.trans hy0)
              rw [hx]
              exact ha g par y0 y hpcg (by omega) hy0 hi'
            · have hjpar : j ≠ par := by omega
              rw [if_neg hjpar, if_neg hjidx] at hj'
              have h1 : c x y0 = false := ha par j x y0 hpcj hjidx hj' hy0
              have h2 : c y0 y = false := ha g par y0 y hpcg (by omega) hy0 hi'
              exact hc.negtrans h1 h2
        · rename_i hcxy
          intro i j x y hij hj hi
          by_cases hjidx : j = idx
          · have hiu := parent_idx_child hij
            rw [hjidx, hp] at hiu
            have hipar : par = i := Option.some.inj hiu
            rw [hjidx] at hj
            rw [← hipar] at hi
            have hx : x = x0 := Option.some.inj (hj.symm.trans hx0)
            have hy : y = y0 := Option.some.inj (hi.symm.trans hy0)
            rw [hx, hy]
            simpa using hcxy
          · exact ha i j x y hij hjidx hj hi
      · rename_i hnb
        intro i j x y hij hj hi
        by_cases hjidx : j = idx
        · have hiu := parent_idx_child hij
          rw [hjidx, hp] at hiu
          have hipar : par = i := Option.some.inj hiu
          rw [hjidx] at hj
          rw [← hipar] at hi
          exact absurd hi (hnb x y hj)
        · exact ha i j x y hij hjidx hj hi

theorem right_idx_none {l : List T} {i : Nat} :
    right_idx l i = none ↔ l.length ≤ 2 * i + 2 := by
  unfold right_idx
  split <;> simp <;> omega

theorem heapProp_of_stop (c : T → T → Bool) (l : List T) (idx : Nat)
    (ha : ∀ i j x y, (j = 2 * i + 1 ∨ j = 2 * i + 2) → i ≠ idx →
      l[j]? = some x → l[i]? = some y → c x y = false)
    (hchild : ∀ j x y, (j = 2 * idx + 1 ∨ j = 2 * idx + 2) →
      l[j]? = some x → l[idx]? = some y → c x y = false) :
    heapProp c l := by
  intro i j x y hij hj hi
  by_cases hiidx : i = idx
  · subst hiidx
    exact hchild j x y hij hj hi
  · exact ha i j x y hij hiidx hj hi

/-- One sift-down swap step: after exchanging `idx` with its child `m`
(which is strictly closer than `idx` and dominates the other child), the
two sift-down invariants hold again at `m`. -/
theorem swap_child_invariants (c : T → T → Bool) (hc : LawfulCmp c)
    (l : List T) (idx m : Nat) (hm : m = 2 * idx + 1 ∨ m = 2 * idx + 2)
    (xm xi : T) (hxm : l[m]? = some xm) (hxi : l[idx]? = some xi)
    (hcm : c xm xi = true)
    (hdom : ∀ j x, (j = 2 * idx + 1 ∨ j = 2 * idx + 2) → j ≠ m →
      l[j]? = some x → c x xm = false)
    (ha : ∀ i j x y, (j = 2 * i + 1 ∨ j = 2 * i + 2) → i ≠ idx →
      l[j]? = some x → l[i]? = some y → c x y = false)
    (hb : ∀ p j x y, parent_idx idx = some p →
      (j = 2 * idx + 1 ∨ j = 2 * idx + 2) →
      l[j]? = some x → l[p]? = some y → c x y = false) :
    (∀ i j x y, (j = 2 * i + 1 ∨ j = 2 * i + 2) → i ≠ m →
      (listSwap l idx m)[j]? = some x → (listSwap l idx m)[i]? = some y →
        c x y = false) ∧
    (∀ p j x y, parent_idx m = some p → (j = 2 * m + 1 ∨ j = 2 * m + 2) →
      (listSwap l idx m)[j]? = some x → (listSwap l idx m)[p]? = some y →
        c x y = false) := by
  have hidxlt : idx < l.length := getElem?_some_lt hxi
  have hmlt : m < l.length := getElem?_some_lt hxm
  have hswap := fun k => listSwap_getElem? (l := l) hidxlt hmlt k
  have hpm : parent_idx m = some idx := parent_idx_child hm
  constructor
  · intro i j x y hij hine hj' hi'
    rw [hswap j] at hj'
    rw [hswap i] at hi'
    by_cases hiidx : i = idx
    · subst hiidx
      rw [if_neg (by omega : i ≠ m), if_pos rfl] at hi'
      have hy : y = xm := Option.some.inj (hi'.symm.trans hxm)
      by_cases hjm : j = m
      · rw [if_pos hjm] at hj'
        have hx : x = xi := Option.some.inj (hj'.symm.trans hxi)
        rw [hx, hy]
        exact hc.asymm xm xi hcm
      · rw [if_neg hjm, if_neg (by omega : j ≠ i)] at hj'
        rw [hy]
        exact hdom j x (by omega) hjm hj'
    · by_cases hjidx : j = idx
      · have hiu := parent_idx_child hij
        rw [hjidx] at hiu
        rw [hjidx, if_neg (by omega : idx ≠ m), if_pos rfl] at hj'
        have hx : x = xm := Option.some.inj (hj'.symm.trans hxm)
        rw [if_neg hine, if_neg hiidx] at hi'
        rw [hx]
        exact hb i m xm y hiu hm hxm hi'
      · by_cases hjm : j = m
        · have hiu := parent_idx_child hij
          rw [hjm, hpm] at hiu
          have : idx = i := Option.some.inj hiu
          omega
        · rw [if_neg hjm, if_neg hjidx] at hj'
          rw [if_neg hine, if_neg hiidx] at hi'
          exact ha i j x y hij hiidx hj' hi'
  · intro p j x y hp hpcj hj' hi'
    rw [hpm] at hp
    have hpidx : idx = p := Option.some.inj hp
    rw [hswap j, if_neg (by omega : j ≠ m), if_neg (by omega : j ≠ idx)] at hj'
    rw [hswap p, ← hpidx, if_neg (by omega : idx ≠ m), if_pos rfl] at hi'
    have hy : y = xm := Option.some.inj (hi'.symm.trans hxm)
    rw [hy]
    exact ha m j x xm hpcj (by omega) hj' hxm

/-- Sift-down restores the heap invariant: if every parent-child pair whose
parent is not `idx` already satisfies it, and the element above `idx`
dominates `idx`'s children, then `shift_down` yields a heap (for a lawful
comparator). -/
theorem shift_down_heap_aux (c : T → T → Bool) (hc : LawfulCmp c) (n : Nat) :
    ∀ (l : List T) (idx : Nat), l.length - idx ≤ n →
      (∀ i j x y, (j = 2 * i + 1 ∨ j = 2 * i + 2) → i ≠ idx →
        l[j]? = some x → l[i]? = some y → c x y = false) →
      (∀ p j x y, parent_idx idx = some p →
        (j = 2 * idx + 1 ∨ j = 2 * idx + 2) →
        l[j]? = some x → l[p]? = some y → c x y = false) →
      heapProp c (shift_down c l idx) := by
  induction n with
  | zero =>
    intro l idx hn ha hb
    unfold shift_down
    split
    · refine heapProp_of_stop c l idx ha ?_
      intro j x y hij hj hi
      have := getElem?_some_lt hj
      omega
    · rename_i left hL
      obtain ⟨hleq, hllt⟩ := left_idx_some.mp hL
      exact absurd hllt (by omega)
  | succ n ih =>
    intro l idx hn ha hb
    unfold shift_down
    split
    · rename_i hL
      have hnl := left_idx_none.mp hL
      refine heapProp_of_stop c l idx ha ?_
      intro j x y hij hj hi
      have := getElem?_some_lt hj
      omega
    · rename_i left hL
      obtain ⟨hleq, hllt⟩ := left_idx_some.mp hL
      split
      · rename_i hR
        have hrn := right_idx_none.mp hR
        split
        · rename_i xl xi hxl hxi
          split
          · rename_i hcl
            obtain ⟨ha', hb'⟩ := swap_child_invariants c hc l idx left
              (Or.inl hleq) xl xi hxl hxi hcl
              (fun j x hj hjne hjx =>
                absurd (getElem?_some_lt hjx) (by omega)) ha hb
            exact ih _ left (by rw [listSwap_length]; omega) ha' hb'
          · rename_i hcl
            refine heapProp_of_stop c l idx ha ?_
            intro j x y hij hj hi
            have hy : y = xi := Option.some.inj (hi.symm.trans hxi)
            by_cases hjl : j = left
            · rw [hjl] at hj
              have hx : x = xl := Option.some.inj (hj.symm.trans hxl)
              rw [hx, hy]
              simpa using hcl
            · have := getElem?_some_lt hj
              omega
        · rename_i hnb
          have h1 : l[left]? = some l[left] :=
            List.getElem?_eq_getElem hllt
          have h2 : l[idx]? = some l[idx] :=
            List.getElem?_eq_getElem (by omega)
          exact absurd h2 (hnb _ _ h1)
      · rename_i right hR
        obtain ⟨hreq, hrlt⟩ := right_idx_some.mp hR
        split
        · rename_i xl xr xi hxl hxr hxi
          split
          · rename_i hclr
            split
            · rename_i hcl
              obtain ⟨ha', hb'⟩ := swap_child_invariants c hc l idx left
                (Or.inl hleq) xl xi hxl hxi hcl
                (fun j x hj hjne hjx => by
                  have hjr : j = right := by omega
                  rw [hjr] at hjx
                  have hx : x = xr := Option.some.inj (hjx.symm.trans hxr)
                  rw [hx]
                  exact hc.asymm xl xr hclr) ha hb
              exact ih _ left (by rw [listSwap_length]; omega) ha' hb'
            · rename_i hcl
              refine heapProp_of_stop c l idx ha ?_
              intro j x y hij hj hi
              have hy : y = xi := Option.some.inj (hi.symm.trans hxi)
              by_cases hjl : j = left
              · rw [hjl] at hj
                have hx : x = xl := Option.some.inj (hj.symm.trans hxl)
                rw [hx, hy]
                simpa using hcl
              · have hjr : j = right := by omega
                rw [hjr] at hj
                have hx : x = xr := Option.some.inj (hj.symm.trans hxr)
                rw [hx, hy]
                cases hx2 : c xr xi with
                | false => rfl
                | true =>
                  have := hc.trans xl xr xi hclr hx2
                  simp [this] at hcl
          · rename_i hclr
            split
            · rename_i hcr
              obtain ⟨ha', hb'⟩ := swap_child_invariants c hc l idx right
                (Or.inr hreq) xr xi hxr hxi hcr
                (fun j x hj hjne hjx => by
                  have hjl : j = left := by omega
                  rw [hjl] at hjx
                  have hx : x = xl := Option.some.inj (hjx.symm.trans hxl)
                  rw [hx]
                  simpa using hclr) ha hb
              exact ih _ right (by rw [listSwap_length]; omega) ha' hb'
            · rename_i hcr
              refine heapProp_of_stop c l idx ha ?_
              intro j x y hij hj hi
              have hy : y = xi := Option.some.inj (hi.symm.trans hxi)
              by_cases hjl : j = left
              · rw [hjl] at hj
                have hx : x = xl := Option.some.inj (hj.symm.trans hxl)
                rw [hx, hy]
                exact hc.negtrans (by simpa using hclr) (by simpa using hcr)
              · have hjr : j = right := by omega
                rw [hjr] at hj
                have hx : x = xr := Option.some.inj (hj.symm.trans hxr)
                rw [hx, hy]
                simpa using hcr
        · rename_i hnb
          have h1 : l[left]? = some l[left] :=
            List.getElem?_eq_getElem hllt
          have h2 : l[right]? = some l[right] :=
            List.getElem?_eq_getElem hrlt
          have h3 : l[idx]? = some l[idx] :=
            List.getElem?_eq_getElem (by omega)
          exact absurd h3 (hnb _ _ _ h1 h2)

theorem shift_down_heap (c : T → T → Bool) (hc : LawfulCmp c)
    {l : List T} {idx : Nat}
    (ha : ∀ i j x y, (j = 2 * i + 1 ∨ j = 2 * i + 2) → i ≠ idx →
      l[j]? = some x → l[i]? = some y → c x y = false)
    (hb : ∀ p j x y, parent_idx idx = some p →
      (j = 2 * idx + 1 ∨ j = 2 * idx + 2) →
      l[j]? = some x → l[p]? = some y → c x y = false) :
    heapProp c (shift_down c l idx) :=
  shift_down_heap_aux c hc (l.length - idx) l idx le_rfl ha hb

theorem push_into_store_heap (c : T → T → Bool) (hc : LawfulCmp c)
    (store : List T) (item : T) (h : heapProp c store) :
    heapProp c (push_into_store c store item) := by
  unfold push_into_store
  show heapProp c (shift_up c (store ++ [item]) ((store ++ [item]).length - 1))
  have hlen : (store ++ [item]).length - 1 = store.length := by simp
  rw [hlen]
  apply shift_up_heap c hc store.length (store ++ [item])
  · intro i j x y hij hjne hj hi
    have hjlt : j < (store ++ [item]).length := getElem?_some_lt hj
    have hjlt2 : j < store.length := by
      simp only [List.length_append, List.length_cons, List.length_nil] at hjlt
      omega
    have hilt2 : i < store.length := by omega
    rw [List.getElem?_append, if_pos hjlt2] at hj
    rw [List.getElem?_append, if_pos hilt2] at hi
    exact h i j x y hij hj hi
  · intro p j x y hp hij hj hi
    have hjlt : j < (store ++ [item]).length := getElem?_some_lt hj
    simp only [List.length_append, List.length_cons, List.length_nil] at hjlt
    omega

theorem pop_from_store_heap (c : T → T → Bool) (hc : LawfulCmp c)
    (store : List T) (h : heapProp c store) :
    heapProp c (pop_from_store c store).2 := by
  unfold pop_from_store
  split
  · exact h
  · rename_i hlen
    intro i j x y hij hj hi
    have hjlt := getElem?_some_lt hj
    rw [List.length_dropLast, hlen] at hjlt
    omega
  · rename_i m hlen
    have h0 : 0 < store.length := by omega
    have hlast : store.length - 1 < store.length := by omega
    have hswap := fun k => listSwap_getElem? (l := store) h0 hlast k
    show heapProp c (shift_down c (listSwap store 0 (store.length - 1)).dropLast 0)
    apply shift_down_heap c hc
    · intro i j x y hij hine hj hi
      rw [List.getElem?_dropLast, listSwap_length] at hj hi
      by_cases hjb : j < store.length - 1
      · rw [if_pos hjb] at hj
        by_cases hib : i < store.length - 1
        · rw [if_pos hib] at hi
          rw [hswap j, if_neg (by omega), if_neg (by omega)] at hj
          rw [hswap i, if_neg (by omega), if_neg hine] at hi
          exact h i j x y hij hj hi
        · rw [if_neg hib] at hi
          exact Option.noConfusion hi
      · rw [if_neg hjb] at hj
        exact Option.noConfusion hj
    · intro p j x y hp hij hj hi
      rw [show parent_idx 0 = none from rfl] at hp
      exact Option.noConfusion hp

theorem push_vec_heap (c : T → T → Bool) (hc : LawfulCmp c) (items : List T) :
    ∀ store : List T, heapProp c store → heapProp c (push_vec c store items) := by
  induction items with
  | nil =>
    intro store h
    exact h
  | cons item rest ih =>
    intro store h
    unfold push_vec
    exact ih _ (push_into_store_heap c hc store item h)

theorem pop_by_stake_heap_aux (c : T → T → Bool) (hc : LawfulCmp c)
    (stake : T) (n : Nat) :
    ∀ store : List T, store.length ≤ n → heapProp c store →
      heapProp c (pop_by_stake c store stake).2 := by
  induction n with
  | zero =>
    intro store hn h
    have hnil : store = [] := List.length_eq_zero.mp (by omega)
    subst hnil
    unfold pop_by_stake
    exact h
  | succ n ih =>
    intro store hn h
    unfold pop_by_stake
    split
    · exact h
    · rename_i peek h0
      split
      · split
        · rename_i s h2
          have hsnd : (pop_from_store c store).2 = s := by rw [h2]
          rw [← hsnd]
          exact pop_from_store_heap c hc store h
        · rename_i top s h2
          have hsnd : (pop_from_store c store).2 = s := by rw [h2]
          have hsheap : heapProp c s := by
            rw [← hsnd]
            exact pop_from_store_heap c hc store h
          have hslen : s.length ≤ n := by
            have hpl := pop_from_store_length c store
            rw [h2] at hpl
            have hpl2 : s.length = store.length - 1 := by simpa using hpl
            have hlen0 : store.length ≠ 0 := by
              cases store with
              | nil => simp at h0
              | cons a t => simp
            omega
          exact ih s hslen hsheap
      · exact h

theorem pop_by_stake_heap (c : T → T → Bool) (hc : LawfulCmp c)
    (store : List T) (stake : T) (h : heapProp c store) :
    heapProp c (pop_by_stake c store stake).2 :=
  pop_by_stake_heap_aux c hc stake store.length store le_rfl h

/-! ### Concrete comparators and evaluations -/

theorem gtc_lawful : LawfulCmp gtc := by
  constructor
  · intro a b h
    simp [gtc] at *
    omega
  · intro a b d h1 h2
    simp [gtc] at *
    omega
  · intro a b h1 h2
    simp [gtc] at *
    omega

theorem eval_push1 : push_into_store gtc [] 10 = [10] := by
  simp [push_into_store, shift_up, parent_idx, listSwap, gtc]

theorem eval_push2 : push_into_store gtc [10] 20 = [20, 10] := by
  simp [push_into_store, shift_up, parent_idx, listSwap, gtc]

theorem eval_push3 : push_into_store gtc [20, 10] 30 = [30, 10, 20] := by
  simp [push_into_store, shift_up, parent_idx, listSwap, gtc]

theorem eval_push4 : push_into_store gtc [30, 10, 20] 40 = [40, 30, 20, 10] := by
  simp [push_into_store, shift_up, parent_idx, listSwap, gtc]

theorem eval_push5 : push_into_store gtc [40, 30, 20, 10] 50 = [50, 40, 20, 10, 30] := by
  simp [push_into_store, shift_up, parent_idx, listSwap, gtc]

theorem eval_push_chain : push_vec gtc [] [10, 20, 30, 40, 50] = [50, 40, 20, 10, 30] := by
  simp only [push_vec]
  rw [eval_push1, eval_push2, eval_push3, eval_push4, eval_push5]

theorem eval_pop50 : pop_from_store gtc [50, 40, 20, 10, 30] = (some 50, [40, 30, 20, 10]) := by
  simp [pop_from_store, shift_down, parent_idx, left_idx, right_idx, listSwap, gtc]

theorem eval_pop40 : pop_from_store gtc [40, 30, 20, 10] = (some 40, [30, 10, 20]) := by
  simp [pop_from_store, shift_down, parent_idx, left_idx, right_idx, listSwap, gtc]

theorem eval_pbs3 : pop_by_stake gtc [30, 10, 20] 35 = ([], [30, 10, 20]) := by
  rw [pop_by_stake]
  split
  · rename_i h0
    simp at h0
  · rename_i peek h0
    simp at h0
    rw [if_neg (by simp [gtc, ← h0])]

theorem eval_pbs2 : pop_by_stake gtc [40, 30, 20, 10] 35 = ([40], [30, 10, 20]) := by
  rw [pop_by_stake]
  split
  · rename_i h0
    simp at h0
  · rename_i peek h0
    simp at h0
    rw [if_pos (by simp [gtc, ← h0])]
    split
    · rename_i s h2
      rw [eval_pop40] at h2
      simp at h2
    · rename_i top s h2
      rw [eval_pop40] at h2
      simp at h2
      obtain ⟨h3, h4⟩ := h2
      rw [← h3, ← h4, eval_pbs3]

theorem eval_pbs_chain : pop_by_stake gtc [50, 40, 20, 10, 30] 35 = ([50, 40], [30, 10, 20]) := by
  rw [pop_by_stake]
  split
  · rename_i h0
    simp at h0
  · rename_i peek h0
    simp at h0
    rw [if_pos (by simp [gtc, ← h0])]
    split
    · rename_i s h2
      rw [eval_pop50] at h2
      simp at h2
    · rename_i top s h2
      rw [eval_pop50] at h2
      simp at h2
      obtain ⟨h3, h4⟩ := h2
      rw [← h3, ← h4, eval_pbs2]

theorem eval_push_bad : push_into_store badc [0, 1] 2 = [2, 1, 0] := by
  simp [push_into_store, shift_up, parent_idx, listSwap, badc]

/-- C1 counterexample: with a comparator that is not a strict order
(`badc`), pushing `2` onto the valid two-element heap `[0, 1]` produces
`[2, 1, 0]`, whose left child `1` is strictly closer than its parent `2` —
so the claim's unrestricted quantification over comparators fails. -/
theorem heap_invariant_counterexample :
    heapProp badc [0, 1] ∧ ¬ heapProp badc (push_into_store badc [0, 1] 2) := by
  constructor
  · exact heapProp_of_heapPropB (by decide)
  · rw [eval_push_bad]
    intro h
    have h2 := h 0 1 1 2 (Or.inl rfl) rfl rfl
    simp [badc] at h2

/-- C1 (amended): for every comparator that is a strict total order, every
sequence satisfying the heap property still satisfies it after any single
public operation — push, push_vec, pop, or pop_vec (threshold pop). -/
theorem heap_invariant_preserved (c : T → T → Bool) (hc : LawfulCmp c)
    (l : List T) (h : heapProp c l) (item : T) (items : List T) (stake : T) :
    heapProp c (push_into_store c l item) ∧
    heapProp c (push_vec c l items) ∧
    heapProp c (pop_from_store c l).2 ∧
    heapProp c (pop_by_stake c l stake).2 :=
  ⟨push_into_store_heap c hc l item h,
   push_vec_heap c hc items l h,
   pop_from_store_heap c hc l h,
   pop_by_stake_heap c hc l stake h⟩

theorem heap_invariant_preserved_witness :
    heapProp gtc [50, 40, 20, 10, 30] ∧
    (heapProp gtc (push_into_store gtc [50, 40, 20, 10, 30] 25) ∧
     heapProp gtc (push_vec gtc [50, 40, 20, 10, 30] [5, 45]) ∧
     heapProp gtc (pop_from_store gtc [50, 40, 20, 10, 30]).2 ∧
     heapProp gtc (pop_by_stake gtc [50, 40, 20, 10, 30] 35).2) :=
  ⟨heapProp_of_heapPropB (by decide),
   heap_invariant_preserved gtc gtc_lawful [50, 40, 20, 10, 30]
     (heapProp_of_heapPropB (by decide)) 25 [5, 45] 35⟩

/-- C7 counterexample: on `[50, 40, 20, 10, 30]`, `pop_top` leaves
`[40, 30, 20, 10]`, not `[40, 10, 30, 20]` as the spec's scenario says
(sift-down swaps the root with the left child `40` and then stops, since
`10` is not greater than `30`). -/
theorem concrete_scenarios_counterexample :
    (pop_from_store gtc [50, 40, 20, 10, 30]).2 ≠ [40, 10, 30, 20] := by
  rw [eval_pop50]
  simp

/-- C7 (amended): with the max-heap comparator, pushing 10..50 yields
`[50, 40, 20, 10, 30]`; `pop_top` on it returns 50 leaving
`[40, 30, 20, 10]` (not `[40, 10, 30, 20]`); `pop_until 35` returns
`[50, 40]` leaving `[30, 10, 20]`. -/
theorem concrete_scenarios :
    push_vec gtc [] [10, 20, 30, 40, 50] = [50, 40, 20, 10, 30] ∧
    pop_from_store gtc [50, 40, 20, 10, 30] = (some 50, [40, 30, 20, 10]) ∧
    pop_by_stake gtc [50, 40, 20, 10, 30] 35 = ([50, 40], [30, 10, 20]) :=
  ⟨eval_push_chain, eval_pop50, eval_pbs_chain⟩

/-! ### Threshold pop (`pop_until`) -/

theorem pop_by_stake_eq_fuel (c : T → T → Bool) (stake : T) :
    ∀ (n : Nat) (l : List T), l.length ≤ n →
      pop_by_stake c l stake = popUntilFuel c stake n l := by
  intro n
  induction n with
  | zero =>
    intro l hn
    have hnil : l = [] := List.length_eq_zero.mp (by omega)
    subst hnil
    unfold pop_by_stake
    rfl
  | succ n ih =>
    intro l hn
    cases l with
    | nil =>
      unfold pop_by_stake popUntilFuel
      rfl
    | cons a t =>
      rw [pop_by_stake]
      split
      · rename_i h0
        simp at h0
      · rename_i peek h0
        simp only [List.getElem?_cons_zero, Option.some.injEq] at h0
        subst h0
        simp only [popUntilFuel, List.getElem?_cons_zero]
        cases hca : c a stake with
        | false => rw [if_neg (by simp [hca]), if_neg (by simp [hca])]
        | true =>
          rw [if_pos rfl, if_pos rfl]
          split
          · rename_i s h2
            rw [h2]
          · rename_i top s h2
            rw [h2]
            have hslen : s.length ≤ n := by
              have hpl := pop_from_store_length c (a :: t)
              rw [h2] at hpl
              have hpl2 : s.length = (a :: t).length - 1 := by simpa using hpl
              simp at hpl2
              simp at hn
              omega
            rw [ih s hslen]

theorem pop_by_stake_post_aux (c : T → T → Bool) (t : T) :
    ∀ (n : Nat) (l : List T), l.length ≤ n →
      (pop_by_stake c l t).2 = [] ∨
        ∀ x, (pop_by_stake c l t).2[0]? = some x → c x t = false := by
  intro n
  induction n with
  | zero =>
    intro l hn
    have hnil : l = [] := List.length_eq_zero.mp (by omega)
    subst hnil
    left
    unfold pop_by_stake
    rfl
  | succ n ih =>
    intro l hn
    unfold pop_by_stake
    split
    · rename_i h0
      left
      cases l with
      | nil => rfl
      | cons a t2 => simp at h0
    · rename_i peek h0
      have hlen0 : l.length ≠ 0 := by
        cases l with
        | nil => simp at h0
        | cons a t2 => simp
      split
      · split
        · rename_i s h2
          have hfst := pop_from_store_fst c l
          rw [h2, if_neg hlen0, h0] at hfst
          exact Option.noConfusion hfst
        · rename_i top s h2
          show (pop_by_stake c s t).2 = [] ∨
            ∀ x, (pop_by_stake c s t).2[0]? = some x → c x t = false
          have hslen : s.length ≤ n := by
            have hpl := pop_from_store_length c l
            rw [h2] at hpl
            have hpl2 : s.length = l.length - 1 := by simpa using hpl
            omega
          exact ih s hslen
      · rename_i hcp
        right
        intro x hx
        have hx2 : l[0]? = some x := hx
        rw [h0] at hx2
        have hxp : peek = x := Option.some.inj hx2
        subst hxp
        simpa using hcp

theorem pop_by_stake_noop (c : T → T → Bool) (l : List T) (t : T) (x : T)
    (hx : l[0]? = some x) (hcf : c x t = false) :
    pop_by_stake c l t = ([], l) := by
  unfold pop_by_stake
  split
  · rfl
  · rename_i peek h0
    have hpe : peek = x := Option.some.inj (h0.symm.trans hx)
    rw [if_neg (by rw [hpe, hcf]; simp)]

/-- C2: `pop_vec` is exactly the spec's while-loop (repeatedly `pop_top`
while non-empty and the root is closer than the threshold); afterwards the
store is empty or its root fails the predicate; on an empty store or one
whose root already fails it returns `[]` and leaves the store unchanged. -/
theorem pop_until_spec (c : T → T → Bool) (l : List T) (t : T) :
    pop_by_stake c l t = popUntilFuel c t l.length l ∧
    ((pop_by_stake c l t).2 = [] ∨
      ∀ x, (pop_by_stake c l t).2[0]? = some x → c x t = false) ∧
    (l = [] → pop_by_stake c l t = ([], l)) ∧
    (∀ x, l[0]? = some x → c x t = false → pop_by_stake c l t = ([], l)) := by
  refine ⟨pop_by_stake_eq_fuel c t l.length l le_rfl,
    pop_by_stake_post_aux c t l.length l le_rfl, ?_,
    fun x hx hcf => pop_by_stake_noop c l t x hx hcf⟩
  intro hnil
  subst hnil
  unfold pop_by_stake
  rfl

theorem pop_until_spec_witness :
    pop_by_stake gtc [50, 40, 20, 10, 30] 35 =
      popUntilFuel gtc 35 [50, 40, 20, 10, 30].length [50, 40, 20, 10, 30] ∧
    pop_by_stake gtc [10] 10 = ([], [10]) :=
  ⟨(pop_until_spec gtc [50, 40, 20, 10, 30] 35).1,
   (pop_until_spec gtc [10] 10).2.2.2 10 rfl (by decide)⟩

/-! ### `pop_top` behaviour -/

theorem listSwap_dropLast (l : List T) (z : T) (hlen : 2 ≤ l.length)
    (hz : l.getLast? = some z) :
    (listSwap l 0 (l.length - 1)).dropLast = l.dropLast.set 0 z := by
  have h0 : 0 < l.length := by omega
  have hlast : l.length - 1 < l.length := by omega
  rw [List.getLast?_eq_getElem?] at hz
  apply List.ext_getElem?
  intro k
  rw [List.getElem?_dropLast, listSwap_length, List.getElem?_set,
    List.getElem?_dropLast, List.length_dropLast]
  by_cases hk : k < l.length - 1
  · rw [if_pos hk, listSwap_getElem? h0 hlast k, if_neg (by omega)]
    by_cases hk0 : k = 0
    · subst hk0
      rw [if_pos rfl, if_pos rfl, if_pos (by omega), hz]
    · rw [if_neg hk0, if_neg (fun hh => hk0 hh.symm), if_pos hk]
  · rw [if_neg hk]
    by_cases hk0 : 0 = k
    · exact absurd (show k < l.length - 1 by omega) hk
    · rw [if_neg hk0, if_neg hk]

/-- C4: `pop_top` returns nothing on the empty store; removes and returns
the sole element of a singleton; and otherwise returns the original root
and leaves the sift-down (from the root) of the shortened sequence in
which the old tail `z` has replaced the root. -/
theorem pop_top_spec (c : T → T → Bool) (x : T) (l : List T) :
    pop_from_store c ([] : List T) = (none, ([] : List T)) ∧
    pop_from_store c [x] = (some x, ([] : List T)) ∧
    (2 ≤ l.length → ∀ z, l.getLast? = some z →
      pop_from_store c l = (l[0]?, shift_down c (l.dropLast.set 0 z) 0)) := by
  refine ⟨rfl, rfl, ?_⟩
  intro hlen z hz
  refine Prod.ext ?_ ?_
  · rw [pop_from_store_fst, if_neg (by omega)]
  · show (pop_from_store c l).2 = shift_down c (l.dropLast.set 0 z) 0
    rw [← listSwap_dropLast l z hlen hz]
    unfold pop_from_store
    split
    · rename_i heq
      exact absurd heq (by omega)
    · rename_i heq
      exact absurd heq (by omega)
    · rfl

theorem pop_top_spec_witness :
    pop_from_store gtc [50, 40, 20, 10, 30] =
      ([50, 40, 20, 10, 30][0]?,
        shift_down gtc ([50, 40, 20, 10, 30].dropLast.set 0 30) 0) :=
  (pop_top_spec gtc 0 [50, 40, 20, 10, 30]).2.2 (by decide) 30 rfl

/-! ### `push_vec` is sequential pushes -/

/-- C5: the `push_vec` loop equals pushing each item one at a time in input
order (a left fold of single pushes), and `push_vec` of `[]` is a no-op. -/
theorem push_many_sequential (c : T → T → Bool) (store : List T)
    (items : List T) :
    push_vec c store items = pushSeq c store items ∧
    push_vec c store [] = store := by
  constructor
  · induction items generalizing store with
    | nil => rfl
    | cons a rest ih =>
      show push_vec c (push_into_store c store a) rest = _
      rw [ih]
      rfl
  · rfl

/-! ### Index arithmetic -/

/-- C6: `parent_idx` is a left inverse of `left_idx` and `right_idx`
wherever the child exists, and takes the spec's stated values. -/
theorem index_arithmetic_inverse (l : List T) (i j : Nat) :
    (left_idx l i = some j → parent_idx j = some i) ∧
    (right_idx l i = some j → parent_idx j = some i) ∧
    parent_idx 0 = none ∧ parent_idx 1 = some 0 ∧ parent_idx 2 = some 0 ∧
    (∀ m, 2 < m → m % 2 = 1 → parent_idx m = some ((m - 1) / 2)) ∧
    (∀ m, 2 < m → m % 2 = 0 → parent_idx m = some ((m - 2) / 2)) := by
  refine ⟨?_, ?_, rfl, rfl, rfl, ?_, ?_⟩
  · intro h
    obtain ⟨hj, _⟩ := left_idx_some.mp h
    exact parent_idx_child (Or.inl (by omega))
  · intro h
    obtain ⟨hj, _⟩ := right_idx_some.mp h
    exact parent_idx_child (Or.inr (by omega))
  · intro m h1 h2
    unfold parent_idx
    rw [if_neg (by omega), if_neg (by omega), if_pos h2]
  · intro m h1 h2
    unfold parent_idx
    rw [if_neg (by omega), if_neg (by omega), if_neg (by omega)]

theorem index_arithmetic_inverse_witness :
    parent_idx 3 = some 1 ∧ parent_idx 4 = some 1 :=
  ⟨(index_arithmetic_inverse ([0, 0, 0, 0, 0] : List Nat) 1 3).1 (by decide),
   ((index_arithmetic_inverse ([0, 0, 0, 0, 0] : List Nat) 1 4).2).1 (by decide)⟩

/-! ### Termination measures -/

/-- C8: the recursions are well-founded — `parent_idx` strictly decreases,
child indices strictly increase but stay below the length, and `pop_top`
strictly shrinks a non-empty store (so `pop_by_stake`'s store shrinks);
the operations are total Lean functions by construction. -/
theorem operations_total (c : T → T → Bool) (l : List T) :
    (∀ i p, parent_idx i = some p → p < i) ∧
    (∀ i j, left_idx l i = some j → i < j ∧ j < l.length) ∧
    (∀ i j, right_idx l i = some j → i < j ∧ j < l.length) ∧
    (l ≠ [] → (pop_from_store c l).2.length < l.length) := by
  refine ⟨fun i p h => parent_idx_lt h, ?_, ?_, ?_⟩
  · intro i j h
    obtain ⟨hj, hlt⟩ := left_idx_some.mp h
    omega
  · intro i j h
    obtain ⟨hj, hlt⟩ := right_idx_some.mp h
    omega
  · intro hne
    rw [pop_from_store_length]
    have hl0 : l.length ≠ 0 := fun hh => hne (List.length_eq_zero.mp hh)
    omega

theorem operations_total_witness :
    (pop_from_store gtc [3, 1, 2]).2.length < ([3, 1, 2] : List Nat).length :=
  ((operations_total gtc [3, 1, 2]).2.2.2) (by decide)

/-! ### Sift-down child selection -/

/-- C10: with both children present, sift-down compares (and possibly
swaps) with the right child exactly when `closer_than(left, right)` fails —
ties included — and with the left child only when it holds. -/
theorem sift_down_child_selection (c : T → T → Bool) (l : List T)
    (idx left right : Nat) (xl xr xi : T)
    (hL : left_idx l idx = some left) (hR : right_idx l idx = some right)
    (hxl : l[left]? = some xl) (hxr : l[right]? = some xr)
    (hxi : l[idx]? = some xi) :
    (c xl xr = false →
      shift_down c l idx =
        if c xr xi then shift_down c (listSwap l idx right) right else l) ∧
    (c xl xr = true →
      shift_down c l idx =
        if c xl xi then shift_down c (listSwap l idx left) left else l) := by
  constructor <;> intro hclr
  · conv_lhs => rw [shift_down]
    split
    · rename_i h
      rw [hL] at h
      exact Option.noConfusion h
    · rename_i left2 h
      rw [hL] at h
      have h2 := Option.some.inj h
      subst h2
      split
      · rename_i h3
        rw [hR] at h3
        exact Option.noConfusion h3
      · rename_i right2 h3
        rw [hR] at h3
        have h4 := Option.some.inj h3
        subst h4
        split
        · rename_i xl2 xr2 xi2 hxl2 hxr2 hxi2
          have e1 : xl2 = xl := Option.some.inj (hxl2.symm.trans hxl)
          have e2 : xr2 = xr := Option.some.inj (hxr2.symm.trans hxr)
          have e3 : xi2 = xi := Option.some.inj (hxi2.symm.trans hxi)
          subst e1; subst e2; subst e3
          rw [if_neg (by rw [hclr]; simp)]
        · rename_i hnb
          exact absurd hxi (hnb xl xr xi hxl hxr)
  · conv_lhs => rw [shift_down]
    split
    · rename_i h
      rw [hL] at h
      exact Option.noConfusion h
    · rename_i left2 h
      rw [hL] at h
      have h2 := Option.some.inj h
      subst h2
      split
      · rename_i h3
        rw [hR] at h3
        exact Option.noConfusion h3
      · rename_i right2 h3
        rw [hR] at h3
        have h4 := Option.some.inj h3
        subst h4
        split
        · rename_i xl2 xr2 xi2 hxl2 hxr2 hxi2
          have e1 : xl2 = xl := Option.some.inj (hxl2.symm.trans hxl)
          have e2 : xr2 = xr := Option.some.inj (hxr2.symm.trans hxr)
          have e3 : xi2 = xi := Option.some.inj (hxi2.symm.trans hxi)
          subst e1; subst e2; subst e3
          rw [if_pos hclr]
        · rename_i hnb
          exact absurd hxi (hnb xl xr xi hxl hxr)

theorem sift_down_child_selection_witness :
    shift_down gtc [10, 30, 30] 0 =
      if gtc 30 10 then shift_down gtc (listSwap [10, 30, 30] 0 2) 2
      else [10, 30, 30] :=
  (sift_down_child_selection gtc [10, 30, 30] 0 1 2 30 30 10
    (by decide) (by decide) rfl rfl rfl).1 rfl

/-! ### Multiset preservation (claim-level) -/

theorem pop_from_store_none (c : T → T → Bool) (l : List T)
    (h : (pop_from_store c l).1 = none) :
    l = [] ∧ (pop_from_store c l).2 = [] := by
  have hf := pop_from_store_fst c l
  rw [h] at hf
  by_cases hl : l.length = 0
  · have hnil : l = [] := List.length_eq_zero.mp hl
    subst hnil
    exact ⟨rfl, rfl⟩
  · rw [if_neg hl] at hf
    cases l with
    | nil => simp at hl
    | cons a t => simp at hf

/-- C9: every operation preserves the multiset of elements — push adds
exactly the new item, pop removes exactly the returned root (and returns
nothing only on the empty store), and a threshold pop splits the store
into the returned list plus the remainder. -/
theorem multiset_preservation (c : T → T → Bool) (l : List T)
    (item : T) (stake : T) :
    (push_into_store c l item).Perm (item :: l) ∧
    (∀ x, (pop_from_store c l).1 = some x →
      x ∈ l ∧ (x :: (pop_from_store c l).2).Perm l) ∧
    ((pop_from_store c l).1 = none → l = [] ∧ (pop_from_store c l).2 = []) ∧
    ((pop_by_stake c l stake).1 ++ (pop_by_stake c l stake).2).Perm l := by
  refine ⟨push_into_store_perm c l item, ?_, pop_from_store_none c l,
    pop_by_stake_perm c l stake⟩
  intro x hx
  have hp := pop_from_store_perm c l x hx
  exact ⟨hp.mem_iff.mp (List.mem_cons_self x _), hp⟩

theorem multiset_preservation_witness :
    (50 ∈ ([50, 40, 20, 10, 30] : List Nat)) ∧
    (50 :: (pop_from_store gtc [50, 40, 20, 10, 30]).2).Perm
      [50, 40, 20, 10, 30] :=
  (multiset_preservation gtc [50, 40, 20, 10, 30] 0 0).2.1 50
    (by rw [eval_pop50])

/-! ### Heap sort -/

theorem root_min (c : T → T → Bool) (hc : LawfulCmp c) (l : List T)
    (h : heapProp c l) :
    ∀ (i : Nat) (x y : T), l[0]? = some y → l[i]? = some x → c x y = false := by
  intro i
  induction i using Nat.strong_induction_on with
  | _ i ih =>
    intro x y h0 hi
    cases hpi : parent_idx i with
    | none =>
      have hi0 : i = 0 := parent_idx_eq_none.mp hpi
      subst hi0
      have hxy : x = y := Option.some.inj (hi.symm.trans h0)
      rw [hxy]
      exact hc.irrefl y
    | some p =>
      have hplt : p < i := parent_idx_lt hpi
      have hpc := parent_idx_child_iff.mp hpi
      have hpl : p < l.length := by
        have := getElem?_some_lt hi
        omega
      have hsome : l[p]? = some (l.get ⟨p, hpl⟩) := by
        rw [List.getElem?_eq_getElem hpl]
        simp
      have h1 : c x (l.get ⟨p, hpl⟩) = false := h p i x _ hpc hi hsome
      have h2 : c (l.get ⟨p, hpl⟩) y = false := ih p hplt _ y h0 hsome
      exact hc.negtrans h1 h2

theorem popN_perm (c : T → T → Bool) :
    ∀ (n : Nat) (l : List T), ((popN c l n).1 ++ (popN c l n).2).Perm l := by
  intro n
  induction n with
  | zero => intro l; exact List.Perm.refl l
  | succ n ih =>
    intro l
    cases hp : pop_from_store c l with
    | mk fst snd =>
      cases fst with
      | none =>
        have hno := pop_from_store_none c l (by rw [hp])
        have h2 : snd = [] := by
          have h3 := hno.2
          rw [hp] at h3
          exact h3
        simp only [popN, hp, h2, hno.1]
        exact List.Perm.refl _
      | some x =>
        simp only [popN, hp]
        have hperm := pop_from_store_perm c l x (by rw [hp])
        rw [hp] at hperm
        exact (List.Perm.cons x (ih snd)).trans hperm

theorem popN_snd_nil (c : T → T → Bool) :
    ∀ (n : Nat) (l : List T), l.length ≤ n → (popN c l n).2 = [] := by
  intro n
  induction n with
  | zero =>
    intro l hn
    have hnil : l = [] := List.length_eq_zero.mp (by omega)
    subst hnil
    rfl
  | succ n ih =>
    intro l hn
    cases hp : pop_from_store c l with
    | mk fst snd =>
      cases fst with
      | none =>
        have hno := pop_from_store_none c l (by rw [hp])
        have h2 : snd = [] := by
          have h3 := hno.2
          rw [hp] at h3
          exact h3
        simp only [popN, hp, h2]
      | some x =>
        simp only [popN, hp]
        apply ih
        have hl := pop_from_store_length c l
        rw [hp] at hl
        have hl2 : snd.length = l.length - 1 := by simpa using hl
        have hl0 : l.length ≠ 0 := by
          intro hh
          have := pop_from_store_none c l
          rw [List.length_eq_zero.mp hh] at hp
          simp [pop_from_store] at hp
        omega

theorem popN_sorted (c : T → T → Bool) (hc : LawfulCmp c) :
    ∀ (n : Nat) (l : List T), heapProp c l →
      (popN c l n).1.Pairwise (fun a b => c b a = false) := by
  intro n
  induction n with
  | zero => intro l h; exact List.Pairwise.nil
  | succ n ih =>
    intro l h
    cases hp : pop_from_store c l with
    | mk fst snd =>
      cases fst with
      | none =>
        simp only [popN, hp]
        exact List.Pairwise.nil
      | some x =>
        simp only [popN, hp]
        have hheap : heapProp c snd := by
          have hh := pop_from_store_heap c hc l h
          rw [hp] at hh
          exact hh
        refine List.Pairwise.cons ?_ (ih snd hheap)
        intro b hb
        have hbsnd : b ∈ snd := by
          have hpp := popN_perm c n snd
          exact hpp.mem_iff.mp (List.mem_append.mpr (Or.inl hb))
        have hperm := pop_from_store_perm c l x (by rw [hp])
        rw [hp] at hperm
        have hbl : b ∈ l := hperm.mem_iff.mp (List.mem_cons_of_mem x hbsnd)
        have hroot : l[0]? = some x := by
          have hf := pop_from_store_fst c l
          rw [hp] at hf
          by_cases h0 : l.length = 0
          · rw [if_pos h0] at hf
            exact Option.noConfusion hf
          · rw [if_neg h0] at hf
            exact hf.symm
        obtain ⟨iB, hiB⟩ := List.mem_iff_getElem?.mp hbl
        exact root_min c hc l h iB b x hroot hiB

theorem push_vec_perm (c : T → T → Bool) (items : List T) :
    ∀ store : List T, (push_vec c store items).Perm (items ++ store) := by
  induction items with
  | nil => intro store; exact List.Perm.refl store
  | cons a rest ih =>
    intro store
    show (push_vec c (push_into_store c store a) rest).Perm ((a :: rest) ++ store)
    have h1 := ih (push_into_store c store a)
    have h2 : (rest ++ push_into_store c store a).Perm (rest ++ (a :: store)) :=
      List.Perm.append_left rest (push_into_store_perm c store a)
    have h3 : (rest ++ (a :: store)).Perm (a :: (rest ++ store)) :=
      List.perm_middle
    exact ((h1.trans h2).trans h3)

/-- C3: pushing N items into the empty heap and popping N times yields
exactly the items sorted by the comparator, closest-to-root first (stated
as equality with a merge sort under "later is never closer"), and drains
the store. -/
theorem heap_sort_equiv (c : T → T → Bool) (hc : LawfulCmp c)
    (items : List T) :
    (popN c (push_vec c ([] : List T) items) items.length).1 =
      items.mergeSort (fun a b => ! c b a) ∧
    (popN c (push_vec c ([] : List T) items) items.length).2 = [] := by
  have hheap : heapProp c (push_vec c ([] : List T) items) :=
    push_vec_heap c hc items [] (fun i j x y hij hj hi => by simp at hj)
  have hpv : (push_vec c ([] : List T) items).Perm items := by
    have := push_vec_perm c items []
    simpa using this
  have hlen : (push_vec c ([] : List T) items).length = items.length :=
    hpv.length_eq
  have hnil : (popN c (push_vec c ([] : List T) items) items.length).2 = [] :=
    popN_snd_nil c items.length _ (by omega)
  refine ⟨?_, hnil⟩
  have hsorted := popN_sorted c hc items.length _ hheap
  have hperm1 :
      ((popN c (push_vec c ([] : List T) items) items.length).1).Perm items := by
    have hp := popN_perm c items.length (push_vec c ([] : List T) items)
    rw [hnil] at hp
    have hp2 :
        ((popN c (push_vec c ([] : List T) items) items.length).1).Perm
          (push_vec c ([] : List T) items) := by
      simpa using hp
    exact hp2.trans hpv
  have hms_perm : (items.mergeSort (fun a b => ! c b a)).Perm items :=
    List.mergeSort_perm items _
  have hms_sorted :
      (items.mergeSort (fun a b => ! c b a)).Pairwise
        (fun a b => (! c b a) = true) :=
    List.sorted_mergeSort
      (fun a b d h1 h2 => by
        simp only [Bool.not_eq_true'] at h1 h2 ⊢
        exact hc.negtrans h2 h1)
      (fun a b => by
        cases hab : c a b with
        | false => simp [hab]
        | true => simp [hc.asymm a b hab])
      items
  have hms_sorted2 :
      (items.mergeSort (fun a b => ! c b a)).Pairwise
        (fun a b => c b a = false) :=
    hms_sorted.imp (fun h => by simpa using h)
  letI : IsAntisymm T (fun a b => c b a = false) :=
    ⟨fun a b h1 h2 => hc.total a b h2 h1⟩
  exact List.eq_of_perm_of_sorted (hperm1.trans hms_perm.symm)
    hsorted hms_sorted2

theorem heap_sort_equiv_witness :
    (popN gtc (push_vec gtc ([] : List Nat) [10, 30, 20])
        [10, 30, 20].length).1 =
      [10, 30, 20].mergeSort (fun a b => ! gtc b a) :=
  (heap_sort_equiv gtc gtc_lawful [10, 30, 20]).1

end KittiesHeap
